import Mathlib

/-!
Verification of the lotto draw pipeline (`src/app.py`).

The Python module defines three pure functions — `generate_unique_draw`,
`validate_combination`, `analyse_hits` — and a request handler `draw`
that composes them.  We embed each of them below, modelling:
  * Python's `random.sample(range(1, 37), 7)` as an abstract source
    `Nat → List Int` (attempt number to sampled list); the guarantees
    `random.sample` provides (7 distinct values from the range) become
    hypotheses on the source;
  * Python runtime values reaching the handler as `PyVal`
    (ints, floats — carried as exact rationals — and strings) and the
    batch entries as `PyEntry` (a JSON array or some non-list value);
  * `frozenset` as `Finset Int`;
  * Python's stable ascending `sorted` / `list.sort` as the stable
    insertion sort `sortBy` below (any two stable sorts agree, and
    `sortBy` is structurally recursive, hence executable);
  * the Flask responses as `DrawResult` (HTTP status plus message on
    error, the JSON payload on success).
-/

open List (Perm Sublist)

/-! ## A stable executable sort, modelling Python's `sorted`/`list.sort` -/

/-- Insert `a` into `l` before the first element `b` with `le a b`;
the insertion step of a stable insertion sort. -/
def insertLE (le : α → α → Bool) (a : α) : List α → List α
  | [] => [a]
  | b :: l => if le a b then a :: b :: l else b :: insertLE le a l

/-- Stable insertion sort by the boolean comparison `le`: the model of
Python's stable `sorted(·)` and `list.sort`.  Elements are processed
from the front, so an element is placed before every later element it
compares `le` to — in particular before equal-comparing later elements,
which is exactly Python's stability guarantee. -/
def sortBy (le : α → α → Bool) : List α → List α
  | [] => []
  | a :: l => insertLE le a (sortBy le l)

theorem insertLE_perm (le : α → α → Bool) (a : α) (l : List α) :
    Perm (insertLE le a l) (a :: l) := by
  induction l with
  | nil => exact List.Perm.refl _
  | cons b t ih =>
    simp only [insertLE]
    split_ifs with h
    · exact List.Perm.refl _
    · exact (ih.cons b).trans (List.Perm.swap a b t)

theorem sortBy_perm (le : α → α → Bool) (l : List α) : Perm (sortBy le l) l := by
  induction l with
  | nil => exact List.Perm.refl _
  | cons a t ih => exact (insertLE_perm le a _).trans (ih.cons a)

theorem mem_sortBy {le : α → α → Bool} {l : List α} {x : α} :
    x ∈ sortBy le l ↔ x ∈ l :=
  (sortBy_perm le l).mem_iff

theorem length_sortBy (le : α → α → Bool) (l : List α) :
    (sortBy le l).length = l.length :=
  (sortBy_perm le l).length_eq

theorem nodup_sortBy {le : α → α → Bool} {l : List α} (h : l.Nodup) :
    (sortBy le l).Nodup :=
  (sortBy_perm le l).nodup_iff.mpr h

theorem insertLE_pairwise {le : α → α → Bool}
    (htrans : ∀ a b c, le a b → le b c → le a c)
    (htotal : ∀ a b, le a b || le b a)
    (a : α) {l : List α} (hl : l.Pairwise (le · ·)) :
    (insertLE le a l).Pairwise (le · ·) := by
  induction l with
  | nil => simp [insertLE]
  | cons b t ih =>
    simp only [insertLE]
    split_ifs with h
    · refine List.Pairwise.cons ?_ hl
      intro c hc
      rcases List.mem_cons.mp hc with rfl | hc
      · exact h
      · exact htrans a b c h (List.rel_of_pairwise_cons hl hc)
    · have hba : le b a := by
        have h2 : le a b = true ∨ le b a = true := by simpa using htotal a b
        rcases h2 with h2 | h2
        · exact absurd h2 h
        · exact h2
      rw [List.pairwise_cons] at hl
      refine List.Pairwise.cons ?_ (ih hl.2)
      intro c hc
      rcases List.mem_cons.mp ((insertLE_perm le a t).mem_iff.mp hc) with rfl | hc
      · exact hba
      · exact hl.1 c hc

theorem sortBy_pairwise {le : α → α → Bool}
    (htrans : ∀ a b c, le a b → le b c → le a c)
    (htotal : ∀ a b, le a b || le b a) (l : List α) :
    (sortBy le l).Pairwise (le · ·) := by
  induction l with
  | nil => simp [sortBy]
  | cons a t ih => exact insertLE_pairwise htrans htotal a ih

theorem sublist_insertLE (le : α → α → Bool) (a : α) :
    ∀ l : List α, Sublist l (insertLE le a l) := by
  intro l
  induction l with
  | nil => exact List.nil_sublist _
  | cons b t ih =>
    simp only [insertLE]
    split_ifs with h
    · exact (List.Sublist.refl _).cons a
    · exact ih.cons₂ b

theorem pair_sublist_insertLE (le : α → α → Bool) (a y : α) {l : List α}
    (hy : y ∈ l) (hle : le a y) : Sublist [a, y] (insertLE le a l) := by
  induction l with
  | nil => cases hy
  | cons b t ih =>
    simp only [insertLE]
    split_ifs with h
    · exact (List.singleton_sublist.mpr hy).cons₂ a
    · rcases List.mem_cons.mp hy with rfl | hy
      · exact absurd hle (by simpa using h)
      · exact (ih hy).cons b

/-- Stability of `sortBy`: a pair that appears in order in the input and
compares `le` stays in that order in the output. -/
theorem pair_sublist_sortBy {le : α → α → Bool} {x y : α} {l : List α}
    (h : Sublist [x, y] l) (hxy : le x y) : Sublist [x, y] (sortBy le l) := by
  induction l with
  | nil => cases h
  | cons a t ih =>
    cases h with
    | cons a h' => exact (ih h').trans (sublist_insertLE le a (sortBy le t))
    | cons₂ a h' =>
      exact pair_sublist_insertLE le x y
        (mem_sortBy.mpr (List.singleton_sublist.mp h')) hxy

/-! ## Constants and Python runtime values -/

/-- `MAX_COMBINATIONS = 200` from `src/app.py`. -/
def MAX_COMBINATIONS : Nat := 200

/-- `LOTTO_MIN = 1` from `src/app.py`. -/
def LOTTO_MIN : Int := 1

/-- `LOTTO_MAX = 36` from `src/app.py`. -/
def LOTTO_MAX : Int := 36

/-- `NUMBERS_PER_COMBINATION = 7` from `src/app.py`. -/
def NUMBERS_PER_COMBINATION : Nat := 7

/-- A Python runtime value as it can appear inside a submitted
combination: an `int`, a `float` (modelled by the exact rational it
denotes), or a `str`.  These are the cases relevant to the validation
claims. -/
inductive PyVal where
  | vint : Int → PyVal
  | vfloat : Rat → PyVal
  | vstr : String → PyVal
deriving DecidableEq, Repr

/-- Drop leading whitespace, which `int(str)` ignores. -/
def dropWS : List Char → List Char
  | [] => []
  | c :: cs => if c.isWhitespace then dropWS cs else c :: cs

/-- The tail of a Python decimal literal once its first digit has been
read into `acc`: further digits, single underscores between digits
(Python's `5_0` is 50), and optional trailing whitespace; anything else
fails. -/
def pyDigitsRest : List Char → Nat → Option Nat
  | [], acc => some acc
  | c :: cs, acc =>
    if c.isDigit then pyDigitsRest cs (acc * 10 + (c.toNat - 48))
    else if c = '_' then
      match cs with
      | [] => none
      | c' :: cs' =>
        if c'.isDigit then pyDigitsRest cs' (acc * 10 + (c'.toNat - 48)) else none
    else if c.isWhitespace then
      if cs.all Char.isWhitespace then some acc else none
    else none

/-- A digit run of a Python decimal literal, which must start with a
digit. -/
def pyDigits : List Char → Option Nat
  | [] => none
  | c :: cs => if c.isDigit then pyDigitsRest cs (c.toNat - 48) else none

/-- Python's `int(·)` on a string: surrounding whitespace is ignored,
then an optional `+` or `-` sign, then decimal digits with single
underscores allowed between them; `none` models the `ValueError`
raised on anything else (`"abc"`, `""`, `"+ 5"`, `"7.5"`, …).
Non-ASCII digits and exotic Unicode whitespace are outside the
modelled inputs. -/
def pyStrToInt (s : String) : Option Int :=
  match dropWS s.data with
  | '-' :: rest => (pyDigits rest).map fun n => -(n : Int)
  | '+' :: rest => (pyDigits rest).map fun n => (n : Int)
  | l => (pyDigits l).map fun n => (n : Int)

/-- Python's `int(x)` coercion as used in the handler's
`[int(n) for n in combo]`: the identity on ints, truncation toward zero
on (finite) floats — note it does NOT fail on fractional values — and
decimal-literal parsing on strings (`none` models the
`ValueError`/`TypeError` raised on non-numeric text). -/
def pyToInt : PyVal → Option Int
  | .vint n => some n
  | .vfloat q => some (if q < 0 then Int.ceil q else Int.floor q)
  | .vstr s => pyStrToInt s

/-! ## The validator -/

/-- The `for n in numbers` loop of `validate_combination`, carrying the
`seen` set: `isinstance(n, int)` check (only `vint` passes), then range
check, then duplicate check; first failure wins. -/
def validateNums : List PyVal → Finset Int → Bool × String
  | [], _ => (true, "")
  | n :: rest, seen =>
    match n with
    | .vint m =>
      if ¬ (LOTTO_MIN ≤ m ∧ m ≤ LOTTO_MAX) then
        (false, "All numbers must be between 1 and 36.")
      else if m ∈ seen then
        (false, "Numbers within a combination must be unique.")
      else validateNums rest (insert m seen)
    | _ => (false, "All numbers must be integers.")

/-- `validate_combination` from `src/app.py`: length check first, then
the element-wise loop. -/
def validate_combination (numbers : List PyVal) : Bool × String :=
  if numbers.length ≠ NUMBERS_PER_COMBINATION then
    (false, "Each combination must have exactly 7 numbers.")
  else validateNums numbers ∅

/-! ## The draw generator -/

/-- The ascending comparison used for Python's `sorted` on integers. -/
def intLE (a b : Int) : Bool := decide (a ≤ b)

/-- The `for _ in range(max_attempts)` rejection-sampling loop of
`generate_unique_draw`: `fuel` is the number of attempts left, `i` the
index of the current attempt in the random source.  Returns `none` when
the attempts are exhausted (the Python code raises `RuntimeError`). -/
def drawLoop (source : Nat → List Int) (submitted_sets : Finset (Finset Int)) :
    Nat → Nat → Option (List Int)
  | 0, _ => none
  | fuel + 1, i =>
    let draw := source i
    if draw.toFinset ∉ submitted_sets then some (sortBy intLE draw)
    else drawLoop source submitted_sets fuel (i + 1)

/-- `max_attempts = 10_000` from `generate_unique_draw`. -/
def max_attempts : Nat := 10000

/-- `generate_unique_draw` from `src/app.py`: forms
`submitted_sets = {frozenset(c) for c in combinations}` and rejection
samples up to `max_attempts` times from `source` (the model of
`random.sample`), returning the first sample whose value-set is not
submitted, sorted ascending. -/
def generate_unique_draw (source : Nat → List Int) (combinations : List (Finset Int)) :
    Option (List Int) :=
  drawLoop source combinations.toFinset max_attempts 0

/-! ## The hit analyser -/

/-- One `details` record of `analyse_hits`. -/
structure HitDetail where
  index : Nat
  combination : List Int
  hits : Nat
  hit_numbers : List Int
  miss_numbers : List Int
deriving DecidableEq, Repr

/-- Python's `sorted(set(combo) & draw_set)`: the ascending listing of
the distinct elements of `combo` that lie in `draw_set` (`dedup`
realises the passage to the value-set, `sortBy` the ascending order;
this is the unique sorted duplicate-free listing, as produced by
`sorted` on a set). -/
def sortedInter (combo : List Int) (draw_set : Finset Int) : List Int :=
  sortBy intLE (combo.dedup.filter fun x => decide (x ∈ draw_set))

/-- Python's `sorted(set(combo) - draw_set)`, analogously. -/
def sortedDiff (combo : List Int) (draw_set : Finset Int) : List Int :=
  sortBy intLE (combo.dedup.filter fun x => decide (x ∉ draw_set))

/-- The record appended for combination `combo` at 0-based position `i`
when it has at least 4 hits: 1-based index, sorted numbers, hit count,
sorted intersection with and sorted difference from the draw. -/
def hitDetailOf (i : Nat) (combo : List Int) (draw_set : Finset Int) (hits : Nat) :
    HitDetail :=
  { index := i + 1
    combination := sortBy intLE combo
    hits := hits
    hit_numbers := sortedInter combo draw_set
    miss_numbers := sortedDiff combo draw_set }

/-- The `for i, combo in enumerate(combinations)` loop of
`analyse_hits`: returns the counters for exactly 4, 5 and 6 hits
(`summary`) and the details list (in submission order, before the final
sort); `hits` is `len(set(combo) & draw_set)`. -/
def analyseAux (draw_set : Finset Int) : Nat → List (List Int) →
    Nat × Nat × Nat × List HitDetail
  | _, [] => (0, 0, 0, [])
  | i, combo :: rest =>
    let hits := (combo.toFinset ∩ draw_set).card
    let r := analyseAux draw_set (i + 1) rest
    ((if hits = 4 then r.1 + 1 else r.1),
     (if hits = 5 then r.2.1 + 1 else r.2.1),
     (if hits = 6 then r.2.2.1 + 1 else r.2.2.1),
     (if 4 ≤ hits then hitDetailOf i combo draw_set hits :: r.2.2.2 else r.2.2.2))

/-- The result dictionary of `analyse_hits`. -/
structure HitReport where
  six_hits : Nat
  five_hits : Nat
  four_hits : Nat
  total_with_hits : Nat
  details : List HitDetail
deriving DecidableEq, Repr

/-- The comparison realising Python's stable
`details.sort(key=lambda x: x["hits"], reverse=True)`. -/
def hitsGE (a b : HitDetail) : Bool := decide (b.hits ≤ a.hits)

/-- `analyse_hits` from `src/app.py`: run the loop, sort the details by
descending hit count (stable), and assemble the summary;
`total_with_hits` is `sum(summary.values())`. -/
def analyse_hits (combinations : List (List Int)) (draw_set : Finset Int) : HitReport :=
  { six_hits := (analyseAux draw_set 0 combinations).2.2.1
    five_hits := (analyseAux draw_set 0 combinations).2.1
    four_hits := (analyseAux draw_set 0 combinations).1
    total_with_hits := (analyseAux draw_set 0 combinations).1 +
      (analyseAux draw_set 0 combinations).2.1 +
      (analyseAux draw_set 0 combinations).2.2.1
    details := sortBy hitsGE (analyseAux draw_set 0 combinations).2.2.2 }

/-! ## The request handler -/

/-- One element of the request's `combinations` array: either a JSON
list of values or some non-list value. -/
inductive PyEntry where
  | pylist : List PyVal → PyEntry
  | nonlist : PyEntry
deriving DecidableEq, Repr

/-- The comprehension `[int(n) for n in combo]`: coerce every element,
propagating the first failure (the `ValueError`/`TypeError` caught by
the handler). -/
def coerceInts : List PyVal → Option (List Int)
  | [] => some []
  | v :: rest =>
    match pyToInt v with
    | none => none
    | some n =>
      match coerceInts rest with
      | none => none
      | some ns => some (n :: ns)

/-- The per-combination part of the handler `draw`: for each entry, the
list check, the `[int(n) for n in combo]` coercion (whose failure yields
"contains non-integer values"), then `validate_combination` on the
coerced integers; the first failing entry aborts the batch with its
message prefixed by the 1-based index `i + 1`. -/
def validateBatch : List PyEntry → Nat → Except String (List (List Int))
  | [], _ => .ok []
  | entry :: rest, i =>
    match entry with
    | .nonlist => .error ("Combination " ++ toString (i + 1) ++ " is not a valid list.")
    | .pylist vals =>
      match coerceInts vals with
      | none => .error ("Combination " ++ toString (i + 1) ++ " contains non-integer values.")
      | some numbers =>
        match validate_combination (numbers.map PyVal.vint) with
        | (true, _) =>
          match validateBatch rest (i + 1) with
          | .ok v => .ok (numbers :: v)
          | .error e => .error e
        | (false, msg) =>
          .error ("Combination " ++ toString (i + 1) ++ ": " ++ msg)

/-- The JSON payload of a successful `/draw` response. -/
structure SuccessResponse where
  draw : List Int
  combinations_submitted : Nat
  unique_combinations : Nat
  message : String
  hit_report : HitReport
deriving DecidableEq, Repr

/-- A `/draw` response: an error with its HTTP status (400 for input
errors, 500 for the generation failure) or the success payload. -/
inductive DrawResult where
  | error : Nat → String → DrawResult
  | ok : SuccessResponse → DrawResult
deriving DecidableEq, Repr

/-- The handler `draw` from `src/app.py`, modelled from the point where
the `combinations` field has been extracted and is a list (the earlier
JSON checks only produce further 400 errors): batch-level checks,
per-combination validation, dedup by value-set
(`list({frozenset(c) for c in validated})`, modelled by `dedup` on the
list of value-sets — only its length and underlying set matter), draw
generation with the `RuntimeError` mapped to a 500, hit analysis, and
the success payload. -/
def draw_handler (source : Nat → List Int) (combinations : List PyEntry) : DrawResult :=
  if combinations.length = 0 then
    .error 400 "Please provide at least one combination."
  else if combinations.length > MAX_COMBINATIONS then
    .error 400 "Maximum 200 combinations allowed."
  else
    match validateBatch combinations 0 with
    | .error msg => .error 400 msg
    | .ok validated =>
      let unique_combinations := (validated.map List.toFinset).dedup
      match generate_unique_draw source unique_combinations with
      | none => .error 500 "Could not generate a non-matching draw after 10,000 attempts."
      | some result =>
        let draw_set := result.toFinset
        let hit_report := analyse_hits validated draw_set
        .ok { draw := result
              combinations_submitted := validated.length
              unique_combinations := unique_combinations.length
              message := "Draw generated! It does not match any of your " ++
                toString unique_combinations.length ++ " unique combination(s)."
              hit_report := hit_report }

/-! ## Validator correctness -/

/-- The element loop of `validate_combination` succeeds exactly when all
values are in-range integers, none repeats, and none clashes with the
`seen` accumulator. -/
theorem validateNums_eq_true_iff (C : List Int) (seen : Finset Int) :
    validateNums (C.map PyVal.vint) seen = (true, "") ↔
      (∀ x ∈ C, LOTTO_MIN ≤ x ∧ x ≤ LOTTO_MAX) ∧ (∀ x ∈ C, x ∉ seen) ∧ C.Nodup := by
  induction C generalizing seen with
  | nil => simp [validateNums]
  | cons x rest ih =>
    simp only [List.map_cons, validateNums]
    split_ifs with h1 h2
    · constructor
      · intro hcon; exact absurd hcon (by simp)
      · rintro ⟨-, hs, -⟩; exact absurd h2 (hs x (by simp))
    · rw [ih]
      constructor
      · rintro ⟨hr, hs, hn⟩
        refine ⟨?_, ?_, ?_⟩
        · intro y hy
          rcases List.mem_cons.mp hy with rfl | hy
          · exact h1
          · exact hr y hy
        · intro y hy
          rcases List.mem_cons.mp hy with rfl | hy
          · exact h2
          · exact fun hys => hs y hy (Finset.mem_insert_of_mem hys)
        · rw [List.nodup_cons]
          exact ⟨fun hx => hs x hx (Finset.mem_insert_self x seen), hn⟩
      · rintro ⟨hr, hs, hn⟩
        rw [List.nodup_cons] at hn
        refine ⟨fun y hy => hr y (List.mem_cons_of_mem x hy), ?_, hn.2⟩
        intro y hy hins
        rcases Finset.mem_insert.mp hins with rfl | hys
        · exact hn.1 hy
        · exact hs y (List.mem_cons_of_mem x hy) hys
    · constructor
      · intro hcon; exact absurd hcon (by simp)
      · rintro ⟨hr, -, -⟩; exact absurd (hr x (by simp)) h1

/-- **C2.** `validate_combination` accepts a list of integers (returns
`(True, "")`) exactly when it has 7 elements, all between 1 and 36, with
no repetitions. -/
theorem validate_combination_spec (C : List Int) :
    validate_combination (C.map PyVal.vint) = (true, "") ↔
      C.length = 7 ∧ (∀ x ∈ C, 1 ≤ x ∧ x ≤ 36) ∧ C.Nodup := by
  unfold validate_combination
  rw [List.length_map]
  split_ifs with h
  · simp only [NUMBERS_PER_COMBINATION] at h
    constructor
    · intro hcon; exact absurd hcon (by simp)
    · rintro ⟨h7, -⟩; exact absurd h7 h
  · rw [ne_eq, not_not, NUMBERS_PER_COMBINATION] at h
    rw [validateNums_eq_true_iff]
    simp only [LOTTO_MIN, LOTTO_MAX]
    constructor
    · rintro ⟨hr, -, hn⟩; exact ⟨h, hr, hn⟩
    · rintro ⟨-, hr, hn⟩; exact ⟨hr, fun x _ => Finset.not_mem_empty x, hn⟩

/-! ## Draw generator correctness -/

/-- `intLE` is transitive. -/
theorem intLE_trans : ∀ a b c : Int, intLE a b → intLE b c → intLE a c := by
  intro a b c hab hbc
  simp only [intLE, decide_eq_true_eq] at *
  omega

/-- `intLE` is total. -/
theorem intLE_total : ∀ a b : Int, intLE a b || intLE b a := by
  intro a b
  simp only [intLE, Bool.or_eq_true, decide_eq_true_eq]
  omega

/-- Any draw returned by the sampling loop is one of the source's
samples, sorted with `intLE`, whose value-set avoids the submitted
sets. -/
theorem drawLoop_eq_some (source : Nat → List Int) (S : Finset (Finset Int)) :
    ∀ fuel start D, drawLoop source S fuel start = some D →
      ∃ i, (source i).toFinset ∉ S ∧ D = sortBy intLE (source i) := by
  intro fuel
  induction fuel with
  | zero => intro start D h; exact absurd h (by simp [drawLoop])
  | succ n ih =>
    intro start D h
    simp only [drawLoop] at h
    split_ifs at h with hmem
    · exact ih (start + 1) D h
    · exact ⟨start, hmem, (Option.some_inj.mp h).symm⟩

/-- The sampling loop exhausts its fuel exactly when every remaining
attempt produces a submitted value-set. -/
theorem drawLoop_eq_none_iff (source : Nat → List Int) (S : Finset (Finset Int)) :
    ∀ fuel start, drawLoop source S fuel start = none ↔
      ∀ k, k < fuel → (source (start + k)).toFinset ∈ S := by
  intro fuel
  induction fuel with
  | zero => intro start; simp [drawLoop]
  | succ n ih =>
    intro start
    simp only [drawLoop]
    split_ifs with hmem
    · rw [ih (start + 1)]
      constructor
      · intro h k hk
        cases k with
        | zero => simpa using hmem
        | succ m =>
          have e : start + (m + 1) = start + 1 + m := by omega
          rw [e]
          exact h m (by omega)
      · intro h k hk
        have e : start + 1 + k = start + (k + 1) := by omega
        rw [e]
        exact h (k + 1) (by omega)
    · constructor
      · intro hcon; exact absurd hcon (by simp)
      · intro h; exact absurd (by simpa using h 0 (Nat.succ_pos n)) hmem

/-- **C1.** For any forbidden collection of at most 200 seven-element
value-sets from [1, 36] and any random source (satisfying the
`random.sample` guarantees), whenever `generate_unique_draw` returns a
draw, that draw's value-set differs from every forbidden value-set, and
the draw has exactly 7 pairwise-distinct numbers, each in [1, 36],
sorted ascending. -/
theorem generate_unique_draw_spec (source : Nat → List Int) (F : List (Finset Int))
    (D : List Int)
    (hsrc : ∀ i, (source i).length = 7 ∧ (source i).Nodup ∧
      ∀ x ∈ source i, 1 ≤ x ∧ x ≤ 36)
    (hF : F.length ≤ 200)
    (hFsets : ∀ s ∈ F, s.card = 7 ∧ ∀ x ∈ s, 1 ≤ x ∧ x ≤ 36)
    (hret : generate_unique_draw source F = some D) :
    (∀ s ∈ F, D.toFinset ≠ s) ∧ D.length = 7 ∧ D.Nodup ∧
      (∀ x ∈ D, 1 ≤ x ∧ x ≤ 36) ∧ D.Sorted (· ≤ ·) := by
  unfold generate_unique_draw at hret
  obtain ⟨i, hnot, rfl⟩ := drawLoop_eq_some source F.toFinset max_attempts 0 D hret
  have hperm := sortBy_perm intLE (source i)
  have hfin : (sortBy intLE (source i)).toFinset = (source i).toFinset :=
    List.toFinset.ext_iff.mpr fun x => hperm.mem_iff
  refine ⟨?_, ?_, ?_, ?_, ?_⟩
  · intro s hs heq
    apply hnot
    rw [hfin] at heq
    rw [heq]
    exact List.mem_toFinset.mpr hs
  · rw [length_sortBy]
    exact (hsrc i).1
  · exact nodup_sortBy (hsrc i).2.1
  · intro x hx
    exact (hsrc i).2.2 x (mem_sortBy.mp hx)
  · exact List.Pairwise.imp (fun h => by simpa [intLE] using h)
      (sortBy_pairwise intLE_trans intLE_total (source i))

/-- A concrete random source: every attempt yields `[7, 6, 5, 4, 3, 2, 1]`. -/
def cSource1 : Nat → List Int := fun _ => [7, 6, 5, 4, 3, 2, 1]

/-- A concrete forbidden collection for exercising the generator. -/
def cForbidden1 : List (Finset Int) := [({1, 2, 3, 4, 5, 6, 8} : Finset Int)]

/-- Witness for C1: at the source `cSource1` and forbidden collection
`cForbidden1` the generator returns `[1, …, 7]`, whose value-set avoids
the forbidden set and which is sorted. -/
theorem generate_unique_draw_spec_witness :
    ([1, 2, 3, 4, 5, 6, 7] : List Int).toFinset ≠ ({1, 2, 3, 4, 5, 6, 8} : Finset Int) ∧
    ([1, 2, 3, 4, 5, 6, 7] : List Int).Sorted (· ≤ ·) := by
  have h := generate_unique_draw_spec cSource1 cForbidden1 [1, 2, 3, 4, 5, 6, 7]
    (fun i => by
      refine ⟨rfl, ?_, ?_⟩
      · show ([7, 6, 5, 4, 3, 2, 1] : List Int).Nodup
        decide
      · show ∀ x ∈ ([7, 6, 5, 4, 3, 2, 1] : List Int), 1 ≤ x ∧ x ≤ 36
        decide)
    (by decide) (by decide) (by decide)
  exact ⟨h.1 _ (by simp [cForbidden1]), h.2.2.2.2⟩

/-- **C4.** The generator returns `none` (the Python code raises its
`RuntimeError`) exactly when all 10,000 attempts produce a submitted
value-set; and when that happens on a validated batch the handler
answers with status 500 and the generation-failure message — a
service-level failure distinct from the 400 input errors, with no
partial result. -/
theorem generate_draw_failure (source : Nat → List Int) (combos : List PyEntry)
    (validated : List (List Int)) :
    (∀ F : List (Finset Int),
      (generate_unique_draw source F = none ↔
        ∀ i, i < 10000 → (source i).toFinset ∈ F.toFinset)) ∧
    (0 < combos.length → combos.length ≤ MAX_COMBINATIONS →
      validateBatch combos 0 = .ok validated →
      generate_unique_draw source ((validated.map List.toFinset).dedup) = none →
      draw_handler source combos =
        .error 500 "Could not generate a non-matching draw after 10,000 attempts.") := by
  constructor
  · intro F
    unfold generate_unique_draw
    rw [drawLoop_eq_none_iff source F.toFinset max_attempts 0]
    constructor
    · intro h i hi
      simpa using h i hi
    · intro h k hk
      simpa using h k hk
  · intro hpos hmax hval hgen
    unfold draw_handler
    rw [if_neg (by omega), if_neg (Nat.not_lt.mpr hmax), hval]
    simp only [hgen]

/-- A source whose every attempt is the submitted combination. -/
def cSourceClash : Nat → List Int := fun _ => [1, 2, 3, 4, 5, 6, 7]

/-- The one-combination batch `[[1, 2, 3, 4, 5, 6, 7]]`. -/
def cBatchOne : List PyEntry :=
  [PyEntry.pylist [PyVal.vint 1, PyVal.vint 2, PyVal.vint 3, PyVal.vint 4,
    PyVal.vint 5, PyVal.vint 6, PyVal.vint 7]]

/-- Witness for C4: when every sample collides with the single submitted
combination, the handler answers 500 with the generation-failure
message. -/
theorem generate_draw_failure_witness :
    draw_handler cSourceClash cBatchOne =
      DrawResult.error 500 "Could not generate a non-matching draw after 10,000 attempts." := by
  have h := generate_draw_failure cSourceClash cBatchOne [[1, 2, 3, 4, 5, 6, 7]]
  refine h.2 (by decide) (by decide) (by rfl) ?_
  refine (h.1 _).mpr ?_
  intro i hi
  show ([1, 2, 3, 4, 5, 6, 7] : List Int).toFinset ∈
    ((([[1, 2, 3, 4, 5, 6, 7]] : List (List Int)).map List.toFinset).dedup).toFinset
  decide

/-! ## Hit analyser: aggregate counts -/

/-- With a 7-element duplicate-free combination, a 7-element draw set,
and the combination's value-set different from the draw's, the hit
count is at most 6. -/
theorem hits_le_six {c : List Int} {draw_set : Finset Int}
    (hlen : c.length = 7) (hnd : c.Nodup) (hcard : draw_set.card = 7)
    (hne : c.toFinset ≠ draw_set) :
    (c.toFinset ∩ draw_set).card ≤ 6 := by
  by_contra hgt
  push_neg at hgt
  have hsub : c.toFinset ∩ draw_set ⊆ c.toFinset := Finset.inter_subset_left
  have hcle : (c.toFinset ∩ draw_set).card ≤ c.toFinset.card := Finset.card_le_card hsub
  have hc7 : c.toFinset.card = 7 := by rw [List.toFinset_card_of_nodup hnd, hlen]
  have h1 : c.toFinset ∩ draw_set = c.toFinset :=
    Finset.eq_of_subset_of_card_le hsub (by omega)
  have h2 : c.toFinset ⊆ draw_set := by
    rw [← h1]
    exact Finset.inter_subset_right
  exact hne (Finset.eq_of_subset_of_card_le h2 (by omega))

/-- When every combination has at most 6 hits, the analyser loop emits
exactly one detail record per counted combination: the details length
equals the sum of the three counters. -/
theorem analyseAux_length (draw_set : Finset Int) :
    ∀ (i : Nat) (l : List (List Int)),
      (∀ c ∈ l, (c.toFinset ∩ draw_set).card ≤ 6) →
      (analyseAux draw_set i l).2.2.2.length =
        (analyseAux draw_set i l).1 + (analyseAux draw_set i l).2.1 +
          (analyseAux draw_set i l).2.2.1 := by
  intro i l
  induction l generalizing i with
  | nil => intro _; simp [analyseAux]
  | cons c rest ih =>
    intro hle
    have h6 : (c.toFinset ∩ draw_set).card ≤ 6 := hle c (by simp)
    have hrec := ih (i + 1) (fun d hd => hle d (List.mem_cons_of_mem c hd))
    simp only [analyseAux]
    split_ifs with h4 h5 hx6 hge <;> (try simp only [List.length_cons]) <;> omega

/-- **C3.** On the analyser's pipeline inputs (validated 7-number
combinations and a 7-element draw value-set differing from every
combination's value-set), the hit report satisfies
`six_hits + five_hits + four_hits = total_with_hits` and
`total_with_hits` equals the number of detail entries. -/
theorem analyse_hits_aggregate (validated : List (List Int)) (draw_set : Finset Int)
    (hval : ∀ c ∈ validated, c.length = 7 ∧ c.Nodup)
    (hcard : draw_set.card = 7)
    (hne : ∀ c ∈ validated, c.toFinset ≠ draw_set) :
    (analyse_hits validated draw_set).six_hits +
        (analyse_hits validated draw_set).five_hits +
        (analyse_hits validated draw_set).four_hits =
      (analyse_hits validated draw_set).total_with_hits ∧
    (analyse_hits validated draw_set).total_with_hits =
      (analyse_hits validated draw_set).details.length := by
  have hle : ∀ c ∈ validated, (c.toFinset ∩ draw_set).card ≤ 6 := fun c hc =>
    hits_le_six (hval c hc).1 (hval c hc).2 hcard (hne c hc)
  constructor
  · simp only [analyse_hits]
    omega
  · simp only [analyse_hits, length_sortBy]
    exact (analyseAux_length draw_set 0 validated hle).symm

/-- Witness for C3 at the spec's own example: one submission
`[1, 2, 3, 4, 8, 9, 10]` against the draw `{1, …, 7}`. -/
theorem analyse_hits_aggregate_witness :
    (analyse_hits [[1, 2, 3, 4, 8, 9, 10]] ({1, 2, 3, 4, 5, 6, 7} : Finset Int)).six_hits +
        (analyse_hits [[1, 2, 3, 4, 8, 9, 10]] ({1, 2, 3, 4, 5, 6, 7} : Finset Int)).five_hits +
        (analyse_hits [[1, 2, 3, 4, 8, 9, 10]] ({1, 2, 3, 4, 5, 6, 7} : Finset Int)).four_hits =
      (analyse_hits [[1, 2, 3, 4, 8, 9, 10]] ({1, 2, 3, 4, 5, 6, 7} : Finset Int)).total_with_hits ∧
    (analyse_hits [[1, 2, 3, 4, 8, 9, 10]] ({1, 2, 3, 4, 5, 6, 7} : Finset Int)).total_with_hits =
      (analyse_hits [[1, 2, 3, 4, 8, 9, 10]] ({1, 2, 3, 4, 5, 6, 7} : Finset Int)).details.length :=
  analyse_hits_aggregate [[1, 2, 3, 4, 8, 9, 10]] ({1, 2, 3, 4, 5, 6, 7} : Finset Int)
    (by decide) (by decide) (by decide)

/-! ## Handler inversion and the response invariants -/

/-- `dedup` does not change the underlying value-set. -/
theorem toFinset_dedup_eq {α : Type} [DecidableEq α] (l : List α) :
    l.dedup.toFinset = l.toFinset :=
  List.toFinset.ext_iff.mpr fun _ => List.mem_dedup

/-- A successfully validated batch yields one integer list per entry. -/
theorem validateBatch_ok_length :
    ∀ (l : List PyEntry) (i : Nat) (v : List (List Int)),
      validateBatch l i = .ok v → v.length = l.length := by
  intro l
  induction l with
  | nil =>
    intro i v h
    simp only [validateBatch] at h
    obtain rfl := Except.ok.inj h
    rfl
  | cons entry rest ih =>
    intro i v h
    cases entry with
    | nonlist => exact absurd h (by simp [validateBatch])
    | pylist vals =>
      simp only [validateBatch] at h
      split at h
      · exact Except.noConfusion h
      · next numbers hnum =>
        split at h
        · next snd hvc =>
          split at h
          · next w hw =>
            obtain rfl := Except.ok.inj h
            simp only [List.length_cons, ih (i + 1) w hw]
          · exact Except.noConfusion h
        · next msg hvc => exact Except.noConfusion h

/-- Inversion of a successful handler run: the batch passed its checks
and the response is assembled from the validated list and the generated
draw. -/
theorem draw_handler_ok_inv (source : Nat → List Int) (combos : List PyEntry)
    (resp : SuccessResponse) (h : draw_handler source combos = .ok resp) :
    ∃ validated result,
      combos.length ≠ 0 ∧ ¬ combos.length > MAX_COMBINATIONS ∧
      validateBatch combos 0 = .ok validated ∧
      generate_unique_draw source ((validated.map List.toFinset).dedup) = some result ∧
      resp = { draw := result
               combinations_submitted := validated.length
               unique_combinations := ((validated.map List.toFinset).dedup).length
               message := "Draw generated! It does not match any of your " ++
                 toString ((validated.map List.toFinset).dedup).length ++
                 " unique combination(s)."
               hit_report := analyse_hits validated result.toFinset } := by
  simp only [draw_handler] at h
  split_ifs at h with h0 hmax
  split at h
  · exact DrawResult.noConfusion h
  · next validated hv =>
    split at h
    · exact DrawResult.noConfusion h
    · next result hg =>
      refine ⟨validated, result, h0, hmax, hv, hg, ?_⟩
      exact (DrawResult.ok.inj h).symm

/-- **C10.** Every successful handler response satisfies
`1 ≤ unique_combinations ≤ combinations_submitted ≤ 200`, and its `draw`
field is exactly the generator's output for the deduplicated
value-sets. -/
theorem draw_success_invariants (source : Nat → List Int) (combos : List PyEntry)
    (resp : SuccessResponse)
    (hok : draw_handler source combos = .ok resp) :
    1 ≤ resp.unique_combinations ∧
    resp.unique_combinations ≤ resp.combinations_submitted ∧
    resp.combinations_submitted ≤ 200 ∧
    ∃ validated, validateBatch combos 0 = .ok validated ∧
      generate_unique_draw source ((validated.map List.toFinset).dedup) = some resp.draw := by
  obtain ⟨validated, result, h0, hmax, hv, hg, hresp⟩ :=
    draw_handler_ok_inv source combos resp hok
  subst hresp
  have hlenv : validated.length = combos.length := validateBatch_ok_length combos 0 validated hv
  refine ⟨?_, ?_, ?_, validated, hv, hg⟩
  · show 1 ≤ ((List.map List.toFinset validated).dedup).length
    have hne : validated ≠ [] := by
      intro e
      rw [e] at hlenv
      exact h0 hlenv.symm
    have hm : validated.map List.toFinset ≠ [] := by simpa using hne
    have hd : (validated.map List.toFinset).dedup ≠ [] := by
      rw [Ne, List.dedup_eq_nil]
      exact hm
    have := List.length_pos.mpr hd
    omega
  · show ((List.map List.toFinset validated).dedup).length ≤ validated.length
    have h1 := (List.dedup_sublist (validated.map List.toFinset)).length_le
    simpa using h1
  · show validated.length ≤ 200
    rw [hlenv]
    have := Nat.not_lt.mp hmax
    simpa [MAX_COMBINATIONS] using this

/-- A source producing `[30, …, 36]`, disjoint from the sample batches. -/
def cSourceHigh : Nat → List Int := fun _ => [30, 31, 32, 33, 34, 35, 36]

/-- The combination `[1, …, 7]` as a list of Python ints. -/
def cSeven : List PyVal :=
  [PyVal.vint 1, PyVal.vint 2, PyVal.vint 3, PyVal.vint 4, PyVal.vint 5,
   PyVal.vint 6, PyVal.vint 7]

/-- The single-combination batch `[[1, …, 7]]`. -/
def cBatchSingle : List PyEntry := [PyEntry.pylist cSeven]

/-- The expected response for `cBatchSingle` under `cSourceHigh`. -/
def cRespSingle : SuccessResponse :=
  { draw := [30, 31, 32, 33, 34, 35, 36]
    combinations_submitted := 1
    unique_combinations := 1
    message := "Draw generated! It does not match any of your 1 unique combination(s)."
    hit_report := { six_hits := 0, five_hits := 0, four_hits := 0,
                    total_with_hits := 0, details := [] } }

/-- Witness for C10 at a concrete successful run. -/
theorem draw_success_invariants_witness :
    draw_handler cSourceHigh cBatchSingle = DrawResult.ok cRespSingle ∧
    1 ≤ cRespSingle.unique_combinations ∧
    cRespSingle.unique_combinations ≤ cRespSingle.combinations_submitted ∧
    cRespSingle.combinations_submitted ≤ 200 := by
  have h := draw_success_invariants cSourceHigh cBatchSingle cRespSingle (by decide)
  exact ⟨by decide, h.1, h.2.1, h.2.2.1⟩

/-- **C7.** On every successful run, `unique_combinations` counts the
distinct value-sets among the validated combinations (so equal
value-sets collapse to one entry) while `combinations_submitted` stays
the pre-dedup count. -/
theorem dedup_counts (source : Nat → List Int) (combos : List PyEntry)
    (resp : SuccessResponse) (validated : List (List Int))
    (hval : validateBatch combos 0 = .ok validated)
    (hok : draw_handler source combos = .ok resp) :
    resp.unique_combinations = (validated.map List.toFinset).toFinset.card ∧
    resp.combinations_submitted = validated.length := by
  obtain ⟨v', result, -, -, hv', hg, hresp⟩ := draw_handler_ok_inv source combos resp hok
  have hvv : validated = v' := by
    rw [hval] at hv'
    exact Except.ok.inj hv'
  subst hvv
  subst hresp
  constructor
  · show ((List.map List.toFinset validated).dedup).length =
      (List.map List.toFinset validated).toFinset.card
    rw [← toFinset_dedup_eq (validated.map List.toFinset),
      List.toFinset_card_of_nodup (List.nodup_dedup _)]
  · rfl

/-- The two-combination batch with a duplicated combination. -/
def cBatchDup : List PyEntry := [PyEntry.pylist cSeven, PyEntry.pylist cSeven]

/-- The expected response for `cBatchDup` under `cSourceHigh`. -/
def cRespDup : SuccessResponse :=
  { draw := [30, 31, 32, 33, 34, 35, 36]
    combinations_submitted := 2
    unique_combinations := 1
    message := "Draw generated! It does not match any of your 1 unique combination(s)."
    hit_report := { six_hits := 0, five_hits := 0, four_hits := 0,
                    total_with_hits := 0, details := [] } }

/-- Witness for C7: the duplicated batch collapses to one unique
combination while two remain submitted. -/
theorem dedup_counts_witness :
    draw_handler cSourceHigh cBatchDup = DrawResult.ok cRespDup ∧
    cRespDup.unique_combinations = 1 ∧ cRespDup.combinations_submitted = 2 := by
  have h := dedup_counts cSourceHigh cBatchDup cRespDup
    [[1, 2, 3, 4, 5, 6, 7], [1, 2, 3, 4, 5, 6, 7]] (by rfl) (by decide)
  refine ⟨by decide, ?_, ?_⟩
  · rw [h.1]
    rfl
  · rw [h.2]
    rfl

/-! ## Hit analyser: per-record consistency -/

theorem sortedInter_toFinset (combo : List Int) (draw_set : Finset Int) :
    (sortedInter combo draw_set).toFinset = combo.toFinset ∩ draw_set := by
  apply Finset.ext
  intro x
  simp [sortedInter, mem_sortBy, List.mem_filter, List.mem_dedup]

theorem sortedDiff_toFinset (combo : List Int) (draw_set : Finset Int) :
    (sortedDiff combo draw_set).toFinset = combo.toFinset \ draw_set := by
  apply Finset.ext
  intro x
  simp [sortedDiff, mem_sortBy, List.mem_filter, List.mem_dedup]

theorem sortedInter_nodup (combo : List Int) (draw_set : Finset Int) :
    (sortedInter combo draw_set).Nodup :=
  nodup_sortBy ((combo.nodup_dedup).filter _)

theorem sortedDiff_nodup (combo : List Int) (draw_set : Finset Int) :
    (sortedDiff combo draw_set).Nodup :=
  nodup_sortBy ((combo.nodup_dedup).filter _)

theorem sortedInter_length (combo : List Int) (draw_set : Finset Int) :
    (sortedInter combo draw_set).length = (combo.toFinset ∩ draw_set).card := by
  rw [← sortedInter_toFinset combo draw_set,
    List.toFinset_card_of_nodup (sortedInter_nodup combo draw_set)]

theorem sortedDiff_length (combo : List Int) (draw_set : Finset Int) :
    (sortedDiff combo draw_set).length = (combo.toFinset \ draw_set).card := by
  rw [← sortedDiff_toFinset combo draw_set,
    List.toFinset_card_of_nodup (sortedDiff_nodup combo draw_set)]

theorem sortedInter_sorted (combo : List Int) (draw_set : Finset Int) :
    (sortedInter combo draw_set).Sorted (· ≤ ·) :=
  List.Pairwise.imp (fun h => by simpa [intLE] using h)
    (sortBy_pairwise intLE_trans intLE_total _)

theorem sortedDiff_sorted (combo : List Int) (draw_set : Finset Int) :
    (sortedDiff combo draw_set).Sorted (· ≤ ·) :=
  List.Pairwise.imp (fun h => by simpa [intLE] using h)
    (sortBy_pairwise intLE_trans intLE_total _)

/-- Every record in the analyser loop's details list is the record built
by `hitDetailOf` for one of the combinations. -/
theorem analyseAux_mem (draw_set : Finset Int) :
    ∀ (i : Nat) (l : List (List Int)) (d : HitDetail),
      d ∈ (analyseAux draw_set i l).2.2.2 →
      ∃ j c, c ∈ l ∧ d = hitDetailOf j c draw_set ((c.toFinset ∩ draw_set).card) := by
  intro i l
  induction l generalizing i with
  | nil => intro d hd; simp [analyseAux] at hd
  | cons c rest ih =>
    intro d hd
    simp only [analyseAux] at hd
    split_ifs at hd with h4
    · rcases List.mem_cons.mp hd with rfl | hd
      · exact ⟨i, c, by simp, rfl⟩
      · obtain ⟨j, c', hc', hd'⟩ := ih (i + 1) d hd
        exact ⟨j, c', List.mem_cons_of_mem c hc', hd'⟩
    · obtain ⟨j, c', hc', hd'⟩ := ih (i + 1) d hd
      exact ⟨j, c', List.mem_cons_of_mem c hc', hd'⟩

/-- **C9.** Every detail record emitted by `analyse_hits` on validated
combinations is internally consistent: `hits` is the length of
`hit_numbers`; `hit_numbers` and `miss_numbers` are disjoint sorted
lists whose union is the combination's value-set; and their lengths add
up to 7. -/
theorem analyse_hits_details_consistent (combinations : List (List Int))
    (draw_set : Finset Int)
    (hval : ∀ c ∈ combinations, c.length = 7 ∧ c.Nodup) :
    ∀ d ∈ (analyse_hits combinations draw_set).details,
      d.hits = d.hit_numbers.length ∧
      d.hit_numbers.Sorted (· ≤ ·) ∧ d.miss_numbers.Sorted (· ≤ ·) ∧
      (∀ x ∈ d.hit_numbers, x ∉ d.miss_numbers) ∧
      d.hit_numbers.toFinset ∪ d.miss_numbers.toFinset = d.combination.toFinset ∧
      d.hit_numbers.length + d.miss_numbers.length = 7 := by
  intro d hd
  simp only [analyse_hits] at hd
  rw [mem_sortBy] at hd
  obtain ⟨j, c, hc, rfl⟩ := analyseAux_mem draw_set 0 combinations d hd
  obtain ⟨hlen, hnd⟩ := hval c hc
  refine ⟨?_, sortedInter_sorted c draw_set, sortedDiff_sorted c draw_set, ?_, ?_, ?_⟩
  · exact (sortedInter_length c draw_set).symm
  · intro x hx hx'
    have h1 : x ∈ c.toFinset ∩ draw_set := by
      rw [← sortedInter_toFinset c draw_set]
      exact List.mem_toFinset.mpr hx
    have h2 : x ∈ c.toFinset \ draw_set := by
      rw [← sortedDiff_toFinset c draw_set]
      exact List.mem_toFinset.mpr hx'
    exact (Finset.mem_sdiff.mp h2).2 (Finset.mem_inter.mp h1).2
  · show (sortedInter c draw_set).toFinset ∪ (sortedDiff c draw_set).toFinset =
      (sortBy intLE c).toFinset
    rw [sortedInter_toFinset, sortedDiff_toFinset,
      List.toFinset.ext_iff.mpr fun x => (sortBy_perm intLE c).mem_iff]
    have := sup_inf_sdiff c.toFinset draw_set
    simpa using this
  · show (sortedInter c draw_set).length + (sortedDiff c draw_set).length = 7
    rw [sortedInter_length, sortedDiff_length]
    have hc7 : c.toFinset.card = 7 := by rw [List.toFinset_card_of_nodup hnd, hlen]
    have := Finset.card_inter_add_card_sdiff c.toFinset draw_set
    omega

/-- The batch of C9's witness: the spec's near-miss example. -/
def c9combos : List (List Int) := [[1, 2, 3, 4, 8, 9, 10]]

/-- The draw value-set of C9's witness. -/
def c9draw : Finset Int := {1, 2, 3, 4, 5, 6, 7}

/-- The unique detail record `analyse_hits` emits on `c9combos` and
`c9draw`. -/
def c9detail : HitDetail :=
  { index := 1
    combination := [1, 2, 3, 4, 8, 9, 10]
    hits := 4
    hit_numbers := [1, 2, 3, 4]
    miss_numbers := [8, 9, 10] }

/-- Witness for C9 at the concrete near-miss example. -/
theorem analyse_hits_details_consistent_witness :
    c9detail ∈ (analyse_hits c9combos c9draw).details ∧
    c9detail.hits = c9detail.hit_numbers.length ∧
    c9detail.hit_numbers.length + c9detail.miss_numbers.length = 7 := by
  have h := analyse_hits_details_consistent c9combos c9draw (by decide) c9detail (by decide)
  exact ⟨by decide, h.1, h.2.2.2.2.2⟩

/-! ## Hit analyser: ordering of the details -/

/-- `hitsGE` is transitive. -/
theorem hitsGE_trans : ∀ a b c : HitDetail, hitsGE a b → hitsGE b c → hitsGE a c := by
  intro a b c h1 h2
  simp only [hitsGE, decide_eq_true_eq] at *
  omega

/-- `hitsGE` is total. -/
theorem hitsGE_total : ∀ a b : HitDetail, hitsGE a b || hitsGE b a := by
  intro a b
  simp only [hitsGE, Bool.or_eq_true, decide_eq_true_eq]
  omega

/-- The details component of the analyser loop, one step. -/
theorem analyseAux_details_cons (draw_set : Finset Int) (i : Nat) (c : List Int)
    (rest : List (List Int)) :
    (analyseAux draw_set i (c :: rest)).2.2.2 =
      if 4 ≤ (c.toFinset ∩ draw_set).card
      then hitDetailOf i c draw_set ((c.toFinset ∩ draw_set).card) ::
        (analyseAux draw_set (i + 1) rest).2.2.2
      else (analyseAux draw_set (i + 1) rest).2.2.2 := rfl

/-- Indices of detail records produced from position `i` onwards exceed
`i`. -/
theorem analyseAux_index_gt (draw_set : Finset Int) :
    ∀ (i : Nat) (l : List (List Int)) (d : HitDetail),
      d ∈ (analyseAux draw_set i l).2.2.2 → i < d.index := by
  intro i l
  induction l generalizing i with
  | nil => intro d hd; simp [analyseAux] at hd
  | cons c rest ih =>
    intro d hd
    rw [analyseAux_details_cons] at hd
    split_ifs at hd with h4
    · rcases List.mem_cons.mp hd with rfl | hd
      · show i < i + 1
        omega
      · have := ih (i + 1) d hd
        omega
    · have := ih (i + 1) d hd
      omega

/-- Before the final sort, the details are listed in strictly increasing
submission order. -/
theorem analyseAux_index_pairwise (draw_set : Finset Int) :
    ∀ (i : Nat) (l : List (List Int)),
      (analyseAux draw_set i l).2.2.2.Pairwise (fun a b => a.index < b.index) := by
  intro i l
  induction l generalizing i with
  | nil => simp [analyseAux]
  | cons c rest ih =>
    rw [analyseAux_details_cons]
    split_ifs with h4
    · refine List.Pairwise.cons ?_ (ih (i + 1))
      intro d hd
      have := analyseAux_index_gt draw_set (i + 1) rest d hd
      show i + 1 < d.index
      omega
    · exact ih (i + 1)

/-- In a `Pairwise` list, two distinct members are related one way or
the other. -/
theorem pairwise_rel_of_mem {α : Type} {R : α → α → Prop} :
    ∀ {l : List α} {x y : α}, l.Pairwise R → x ∈ l → y ∈ l → x ≠ y → R x y ∨ R y x := by
  intro l
  induction l with
  | nil => intro x y _ hx; cases hx
  | cons a t ih =>
    intro x y hp hx hy hne
    rw [List.pairwise_cons] at hp
    rcases List.mem_cons.mp hx with rfl | hx'
    · rcases List.mem_cons.mp hy with rfl | hy'
      · exact absurd rfl hne
      · exact Or.inl (hp.1 y hy')
    · rcases List.mem_cons.mp hy with rfl | hy'
      · exact Or.inr (hp.1 x hx')
      · exact ih hp.2 hx' hy' hne

/-- In a `Pairwise` list for an asymmetric relation, two related members
form a two-element sublist in that order. -/
theorem pair_sublist_of_pairwise {α : Type} {R : α → α → Prop}
    (hasym : ∀ a b, R a b → R b a → False) :
    ∀ {l : List α} {x y : α}, l.Pairwise R → x ∈ l → y ∈ l → R x y →
      Sublist [x, y] l := by
  intro l
  induction l with
  | nil => intro x y _ hx; cases hx
  | cons a t ih =>
    intro x y hp hx hy hR
    rw [List.pairwise_cons] at hp
    rcases List.mem_cons.mp hx with rfl | hx'
    · rcases List.mem_cons.mp hy with rfl | hy'
      · exact absurd hR fun h => hasym _ _ h h
      · exact (List.singleton_sublist.mpr hy').cons₂ x
    · rcases List.mem_cons.mp hy with rfl | hy'
      · exact absurd (hp.1 x hx') fun h => hasym _ _ hR h
      · exact (ih hp.2 hx' hy' hR).cons a

/-- In a duplicate-free list, a pair cannot occur as a sublist in both
orders unless its two components coincide. -/
theorem pair_sublist_antisymm {α : Type} :
    ∀ {l : List α} {x y : α}, l.Nodup → Sublist [x, y] l → Sublist [y, x] l → x = y := by
  intro l
  induction l with
  | nil => intro x y _ h; exact absurd h (by simp)
  | cons a t ih =>
    intro x y hnd h1 h2
    rw [List.nodup_cons] at hnd
    cases h1 with
    | cons _ h1' =>
      cases h2 with
      | cons _ h2' => exact ih hnd.2 h1' h2'
      | cons₂ _ h2' => exact absurd (h1'.subset (by simp)) hnd.1
    | cons₂ _ h1' =>
      cases h2 with
      | cons _ h2' => exact absurd (h2'.subset (by simp)) hnd.1
      | cons₂ _ h2' => rfl

/-- **C8.** The details list of `analyse_hits` is sorted by descending
hit count, and records with equal hit counts keep their submission
order: earlier (smaller 1-based) indices come first, so the order is
deterministic. -/
theorem analyse_hits_details_sorted (combinations : List (List Int))
    (draw_set : Finset Int) :
    (analyse_hits combinations draw_set).details.Pairwise
      (fun a b => b.hits ≤ a.hits ∧ (a.hits = b.hits → a.index < b.index)) := by
  have hpw : (analyseAux draw_set 0 combinations).2.2.2.Pairwise
      (fun a b => a.index < b.index) :=
    analyseAux_index_pairwise draw_set 0 combinations
  have hnd : (analyseAux draw_set 0 combinations).2.2.2.Nodup :=
    hpw.imp fun h he => by rw [he] at h; exact Nat.lt_irrefl _ h
  have hndr : (sortBy hitsGE (analyseAux draw_set 0 combinations).2.2.2).Nodup :=
    nodup_sortBy hnd
  show (sortBy hitsGE (analyseAux draw_set 0 combinations).2.2.2).Pairwise _
  rw [List.pairwise_iff_forall_sublist]
  intro x y hsub
  have hsorted := sortBy_pairwise hitsGE_trans hitsGE_total
    (analyseAux draw_set 0 combinations).2.2.2
  have hle : hitsGE x y := List.pairwise_iff_forall_sublist.mp hsorted hsub
  constructor
  · simpa [hitsGE] using hle
  · intro htie
    have hx : x ∈ (analyseAux draw_set 0 combinations).2.2.2 :=
      mem_sortBy.mp (hsub.subset (by simp))
    have hy : y ∈ (analyseAux draw_set 0 combinations).2.2.2 :=
      mem_sortBy.mp (hsub.subset (by simp))
    have hne : x ≠ y := by
      have h2 := hsub.nodup hndr
      simp only [List.nodup_cons, List.mem_singleton] at h2
      exact h2.1
    rcases pairwise_rel_of_mem hpw hx hy hne with h | h
    · exact h
    · exfalso
      have hsub2 : Sublist [y, x] (analyseAux draw_set 0 combinations).2.2.2 :=
        pair_sublist_of_pairwise (fun a b h1 h2 => by omega) hpw hy hx h
      have hsub2' : Sublist [y, x]
          (sortBy hitsGE (analyseAux draw_set 0 combinations).2.2.2) :=
        pair_sublist_sortBy hsub2 (by simp [hitsGE, htie])
      exact hne (pair_sublist_antisymm hndr hsub hsub2')

/-! ## Handler validation: coercion precedes `validate_combination` -/

/-- A list with a non-coercible element fails the `[int(n) for n in combo]`
coercion. -/
theorem coerceInts_eq_none {vals : List PyVal} (h : ∃ v ∈ vals, pyToInt v = none) :
    coerceInts vals = none := by
  induction vals with
  | nil => simp at h
  | cons a rest ih =>
    obtain ⟨v, hv, hnone⟩ := h
    rcases List.mem_cons.mp hv with rfl | hv'
    · simp [coerceInts, hnone]
    · simp only [coerceInts]
      cases ha : pyToInt a with
      | none => rfl
      | some n => simp [ih ⟨v, hv', hnone⟩]

/-- Batch validation of an appended list: once the prefix validates, the
computation continues on the rest with the shifted index. -/
theorem validateBatch_append (pre : List PyEntry) :
    ∀ (rest : List PyEntry) (i : Nat) (v : List (List Int)),
      validateBatch pre i = .ok v →
      validateBatch (pre ++ rest) i =
        match validateBatch rest (i + pre.length) with
        | .ok w => .ok (v ++ w)
        | .error e => .error e := by
  induction pre with
  | nil =>
    intro rest i v h
    simp only [validateBatch] at h
    obtain rfl := Except.ok.inj h
    simp only [List.nil_append, List.length_nil, Nat.add_zero]
    cases hr : validateBatch rest i <;> rfl
  | cons entry pre' ih =>
    intro rest i v h
    cases entry with
    | nonlist => exact absurd h (by simp [validateBatch])
    | pylist vals =>
      simp only [validateBatch, List.cons_append, List.length_cons, List.append_eq] at h ⊢
      split at h
      · exact Except.noConfusion h
      · next numbers hnum =>
        split at h
        · next snd hvc =>
          split at h
          · next w hrest =>
            obtain rfl := Except.ok.inj h
            simp only [ih rest (i + 1) w hrest]
            have e : i + (pre'.length + 1) = i + 1 + pre'.length := by omega
            rw [e]
            cases hr : validateBatch rest (i + 1 + pre'.length) <;> rfl
          · next e hrest => exact Except.noConfusion h
        · next msg hvc => exact Except.noConfusion h

/-- **C5 (amended).** A submitted combination whose elements all pass
`int()` coercion is never rejected for integrality (fractional floats
are truncated, not rejected — see the counterexample); when some element
fails `int()` (e.g. non-numeric text) and every earlier entry validates,
the handler rejects the batch with
"Combination N contains non-integer values." — a message produced by
the coercion step in the handler, not by `validate_combination`. -/
theorem draw_rejects_noncoercible (source : Nat → List Int) (pre post : List PyEntry)
    (vals : List PyVal) (valsPre : List (List Int))
    (hpre : validateBatch pre 0 = .ok valsPre)
    (hbad : ∃ v ∈ vals, pyToInt v = none)
    (hlen : pre.length + 1 + post.length ≤ MAX_COMBINATIONS) :
    draw_handler source (pre ++ PyEntry.pylist vals :: post) =
      .error 400 ("Combination " ++ toString (pre.length + 1) ++
        " contains non-integer values.") := by
  have hb : validateBatch (pre ++ PyEntry.pylist vals :: post) 0 =
      .error ("Combination " ++ toString (pre.length + 1) ++
        " contains non-integer values.") := by
    rw [validateBatch_append pre (PyEntry.pylist vals :: post) 0 valsPre hpre]
    have hstep : validateBatch (PyEntry.pylist vals :: post) (0 + pre.length) =
        .error ("Combination " ++ toString (pre.length + 1) ++
          " contains non-integer values.") := by
      simp only [validateBatch, coerceInts_eq_none hbad, Nat.zero_add]
    rw [hstep]
  unfold draw_handler
  rw [if_neg (by simp only [List.length_append, List.length_cons]; omega),
    if_neg (by simp only [List.length_append, List.length_cons]; omega), hb]

/-- The valid-prefix batch used in the C5 and C6 counterexamples is
empty, so the bad combination is first. -/
theorem draw_rejects_noncoercible_witness :
    draw_handler cSourceHigh [PyEntry.pylist [PyVal.vstr ("abc")]] =
      DrawResult.error 400 "Combination 1 contains non-integer values." := by
  have h := draw_rejects_noncoercible cSourceHigh [] [] [PyVal.vstr ("abc")] []
    (by rfl) ⟨PyVal.vstr ("abc"), by simp, by rfl⟩ (by decide)
  exact h

/-- The rational 7.5 = 15/2, written in lowest terms so that every
operation on it reduces in the kernel. -/
def ratSevenHalf : Rat := Rat.mk' 15 2 (by norm_num) (by norm_num)

/-- The batch `[[7.5, 2, 3, 4, 5, 6, 1]]` containing a fractional float. -/
def c5batch : List PyEntry :=
  [PyEntry.pylist [PyVal.vfloat ratSevenHalf, PyVal.vint 2, PyVal.vint 3, PyVal.vint 4,
    PyVal.vint 5, PyVal.vint 6, PyVal.vint 1]]

/-- Counterexample to C5 as stated: the fractional value 7.5 is not
integer-valued, yet the batch is NOT rejected — `int()` truncates it to
7 and the handler answers successfully. -/
theorem c5_counterexample :
    pyToInt (PyVal.vfloat ratSevenHalf) = some 7 ∧
    draw_handler cSourceHigh c5batch = DrawResult.ok cRespSingle := by
  constructor
  · decide
  · decide

/-- **C6 (amended).** Inside `validate_combination` the length check
does come first; but the handler coerces all elements with `int()`
before calling it, so a submitted combination is rejected for its
length (with "Combination N: Each combination must have exactly 7
numbers.") only when all its elements coerce — a combination containing
a non-coercible element fails earlier with the coercion message,
whatever its length (see the counterexample). -/
theorem draw_rejects_wrong_length (source : Nat → List Int) (pre post : List PyEntry)
    (vals : List PyVal) (numbers : List Int) (valsPre : List (List Int))
    (hpre : validateBatch pre 0 = .ok valsPre)
    (hco : coerceInts vals = some numbers)
    (hlen7 : numbers.length ≠ 7)
    (hlen : pre.length + 1 + post.length ≤ MAX_COMBINATIONS) :
    (∀ ns : List PyVal, ns.length ≠ 7 →
      validate_combination ns = (false, "Each combination must have exactly 7 numbers.")) ∧
    draw_handler source (pre ++ PyEntry.pylist vals :: post) =
      .error 400 ("Combination " ++ toString (pre.length + 1) ++ ": " ++
        "Each combination must have exactly 7 numbers.") := by
  have hfirst : ∀ ns : List PyVal, ns.length ≠ 7 →
      validate_combination ns = (false, "Each combination must have exactly 7 numbers.") := by
    intro ns h7
    unfold validate_combination
    rw [if_pos (by simpa [NUMBERS_PER_COMBINATION] using h7)]
  refine ⟨hfirst, ?_⟩
  have hvc : validate_combination (numbers.map PyVal.vint) =
      (false, "Each combination must have exactly 7 numbers.") :=
    hfirst (numbers.map PyVal.vint) (by simpa [List.length_map] using hlen7)
  have hb : validateBatch (pre ++ PyEntry.pylist vals :: post) 0 =
      .error ("Combination " ++ toString (pre.length + 1) ++ ": " ++
        "Each combination must have exactly 7 numbers.") := by
    rw [validateBatch_append pre (PyEntry.pylist vals :: post) 0 valsPre hpre]
    have hstep : validateBatch (PyEntry.pylist vals :: post) (0 + pre.length) =
        .error ("Combination " ++ toString (pre.length + 1) ++ ": " ++
          "Each combination must have exactly 7 numbers.") := by
      simp only [validateBatch, hco, hvc, Nat.zero_add]
    rw [hstep]
  unfold draw_handler
  rw [if_neg (by simp only [List.length_append, List.length_cons]; omega),
    if_neg (by simp only [List.length_append, List.length_cons]; omega), hb]

/-- Witness for the amended C6: a length-1 all-integer combination is
rejected with the length message. -/
theorem draw_rejects_wrong_length_witness :
    draw_handler cSourceHigh [PyEntry.pylist [PyVal.vint 1]] =
      DrawResult.error 400 "Combination 1: Each combination must have exactly 7 numbers." := by
  have h := draw_rejects_wrong_length cSourceHigh [] [] [PyVal.vint 1] [1] []
    (by rfl) (by rfl) (by decide) (by decide)
  exact h.2

/-- The length-1 batch whose only element is non-numeric text. -/
def c6batch : List PyEntry := [PyEntry.pylist [PyVal.vstr ("abc")]]

/-- Counterexample to C6 as stated: this combination has length 1 ≠ 7
and also a non-coercible element, yet the handler reports the coercion
failure, not the length failure — the length check does not come first
on the handler path. -/
theorem c6_counterexample :
    draw_handler cSourceHigh c6batch =
      DrawResult.error 400 "Combination 1 contains non-integer values." ∧
    draw_handler cSourceHigh c6batch ≠
      DrawResult.error 400 "Combination 1: Each combination must have exactly 7 numbers." := by
  constructor
  · decide
  · decide
